import Mathlib

/-!
Formal model of the phrack-reader session pipeline (`phrack.go`), together
with theorems about its status-consumer loop, its session state and its
archive extraction.

Modelling conventions:
* filesystem paths are lists of components; the filesystem is the list of
  paths that exist;
* `ioutil.TempDir` is modelled by passing the fresh directory name as an
  explicit argument (it always returns a newly created, empty, uniquely
  named directory on success);
* blocking channel/timer events seen by the status loop are modelled as a
  finite trace of events;
* `io.Copy` results are modelled as `none` (success) or `some err`.
-/

namespace PhrackReader

/-- A filesystem path, as a list of components. -/
abbrev FsPath := List String

/-- Render a component path the way Go renders the strings it concatenates
with `"/"`. -/
def pathString (p : FsPath) : String :=
  String.intercalate "/" p

/-- Model of Go `strings.HasSuffix(s, sfx)`. -/
def hasSuffix (s sfx : String) : Bool :=
  sfx.data.isSuffixOf s.data

/-- State of the `status` view: its text buffer, cursor position and
origin (scroll offset), as used by `clearStatus` and `updateStatus`. -/
structure Display where
  buf : String
  cx : Nat
  cy : Nat
  ox : Nat
  oy : Nat
  deriving DecidableEq, Repr

/-- Model of `updateStatus`: append the text to the status view; if the
text ends in a newline, advance the cursor one line (and when the old
cursor row was 3, scroll the origin one line). -/
def updateStatus (d : Display) (status : String) : Display :=
  let d1 : Display := { d with buf := d.buf ++ status }
  if hasSuffix status "\n" then
    let d2 : Display := { d1 with cy := d1.cy + 1 }
    if d1.cy = 3 then { d2 with oy := d2.oy + 1 } else d2
  else d1

/-- An event observed by one iteration of the `select` loop in
`Phracked.load`: either a message arriving on the status channel, or the
one-second `time.After` timer elapsing with no message. -/
inductive LoadEv where
  | msg (s : String)
  | timeout
  deriving DecidableEq, Repr

/-- Result of running the status-consumer loop over a finite event trace:
the final display, the list of texts handed to `updateStatus` (in order),
and whether the loop has returned. -/
structure LoopRes where
  disp : Display
  appended : List String
  exited : Bool
  deriving DecidableEq, Repr

/-- Model of the `select` loop in `Phracked.load`: a `"done"` message makes
the loop return immediately; any other message is appended to the display
via `updateStatus`; a timeout appends a single period.  An exhausted trace
leaves the loop still waiting (`exited = false`). -/
def loadLoop (d : Display) : List LoadEv → LoopRes
  | [] => ⟨d, [], false⟩
  | LoadEv.msg s :: rest =>
      if s = "done" then ⟨d, [], true⟩
      else
        let r := loadLoop (updateStatus d s) rest
        ⟨r.disp, s :: r.appended, r.exited⟩
  | LoadEv.timeout :: rest =>
      let r := loadLoop (updateStatus d ".") rest
      ⟨r.disp, "." :: r.appended, r.exited⟩

/-- The `Phracked` session struct.  `temp = []` models Go's empty string
(no scratch directory allocated yet); `tgz` is the open archive handle,
recorded as the path it points to (`none` = closed or never opened);
`fs` is the list of filesystem paths that currently exist.  The
`sync.WaitGroup`, the status channel and the in-flight `http.Response`
are not part of the state model. -/
structure Phracked where
  issue : String
  url : String
  tempPrefix : String
  temp : FsPath
  filePath : FsPath
  pages : Nat
  tgz : Option FsPath
  fs : List FsPath
  deriving DecidableEq, Repr

/-- The zero value of the `Phracked` struct (Go's `new(Phracked)`), with an
empty filesystem. -/
def Phracked.zero : Phracked :=
  { issue := "", url := "", tempPrefix := "", temp := [], filePath := [],
    pages := 0, tgz := none, fs := [] }

/-- Model of `Phracked.clean`: if a scratch directory is set, close the
archive handle and recursively remove the scratch directory (`os.RemoveAll`
deletes every path it is a prefix of); otherwise do nothing.  The `temp`
field itself is not reset by the Go code. -/
def Phracked.clean (p : Phracked) : Phracked :=
  if p.temp = [] then p
  else { p with tgz := none, fs := p.fs.filter (fun q => decide (¬ p.temp <+: q)) }

/-- The body of `Phracked.init` after the initial `clean`: store the issue
number, the download URL, the temp-directory name pattern, the scratch
directory freshly created by `ioutil.TempDir` (passed in as `freshTemp`),
and the archive path, and create/open the archive file inside the scratch
directory.  Only the success path is modelled; on failure the Go code calls
`cleanFatal`. -/
def Phracked.initBody (p : Phracked) (issue : String) (freshTemp : FsPath) : Phracked :=
  { p with
    issue := issue,
    url := "http://www.phrack.org/archives/tgz/phrack" ++ issue ++ ".tar.gz",
    tempPrefix := "issue-" ++ issue ++ "-",
    temp := freshTemp,
    filePath := freshTemp ++ [issue ++ ".tar.gz"],
    tgz := some (freshTemp ++ [issue ++ ".tar.gz"]),
    fs := (p.fs ++ [freshTemp]) ++ [freshTemp ++ [issue ++ ".tar.gz"]] }

/-- Model of `Phracked.init`: release the previous session with `clean`,
then initialise every field for the new issue. -/
def Phracked.init (p : Phracked) (issue : String) (freshTemp : FsPath) : Phracked :=
  Phracked.initBody (Phracked.clean p) issue freshTemp

/-- The counting loop of `Phracked.countPages`, Go's
`for _, file := range files { if strings.HasSuffix(file.Name(), ".txt") { p.pages++ } }`
started from the accumulator `acc`. -/
def countPagesLoop (names : List String) (acc : Nat) : Nat :=
  match names with
  | [] => acc
  | n :: rest => countPagesLoop rest (if hasSuffix n ".txt" then acc + 1 else acc)

/-- Model of `Phracked.countPages`: `names` are the immediate entries of
the scratch directory as returned by `ioutil.ReadDir(p.temp)`; the count is
first reset to `0` and then incremented once per entry whose name ends in
`".txt"`. -/
def Phracked.countPages (p : Phracked) (names : List String) : Phracked :=
  { p with pages := countPagesLoop names 0 }

/-- Character-level model of
`regexp.MustCompile("[^0-9]+").ReplaceAllString(s, "")`: every maximal run
of non-digit characters is replaced by the empty string, i.e. every
character outside `'0'..'9'` is dropped. -/
def stripNonDigits : List Char → List Char
  | [] => []
  | c :: cs => if c.isDigit then c :: stripNonDigits cs else stripNonDigits cs

/-- The sanitisation applied to the reload prompt's buffer in `loadIssue`. -/
def sanitize (s : String) : String :=
  ⟨stripNonDigits s.data⟩

/-- Model of `loadIssue`: read the prompt view's buffer, strip all
non-digit characters, re-initialise the global session with the result and
start a new pipeline run (`phracked.init(safer); wg.Add(1); go
phracked.load()`).  The boolean records that a pipeline run was started. -/
def loadIssue (p : Phracked) (viewBuffer : String) (freshTemp : FsPath) : Phracked × Bool :=
  let safer := sanitize viewBuffer
  (Phracked.init p safer freshTemp, true)

/-- Outcome of a pipeline stage: normal continuation with the new session
state, or `cleanFatal` (session resources released via `Phracked.clean`,
then the process terminates with `log.Fatal`). -/
inductive RunRes where
  | ok (p : Phracked)
  | fatal (p : Phracked)
  deriving DecidableEq, Repr

/-- Model of `Phracked.writeToFile`: `io.Copy` streams the response body
into the archive file (`copyErr` is its error result); the
`"Wrote to <path>"` status message is sent on the channel, and only
afterwards is the copy error checked, calling `cleanFatal` on failure.
Returns the messages emitted, in order, together with the outcome. -/
def Phracked.writeToFile (p : Phracked) (copyErr : Option String) : List String × RunRes :=
  let msgs := ["Wrote to " ++ pathString p.filePath ++ "\n"]
  match copyErr with
  | none => (msgs, RunRes.ok p)
  | some _ => (msgs, RunRes.fatal (Phracked.clean p))

/-- Model of the package-level `init` function's issue selection: the issue
defaults to `"1"` and is taken verbatim from `os.Args[1]` when a first
positional argument is present (`args` includes the program name at index
0, exactly like `os.Args`). -/
def initialIssue (args : List String) : String :=
  match args with
  | _ :: a :: _ => a
  | _ => "1"

/-- The session state right after process start: the package `init`
function runs `phracked.init(issue)` on the zero-valued global struct. -/
def startSession (args : List String) (freshTemp : FsPath) : Phracked :=
  Phracked.init Phracked.zero (initialIssue args) freshTemp

/-- An entry of the tar archive read by `untar`:
`header.FileInfo().IsDir()` distinguishes directories from regular files;
`name` is the header name as a relative path below the extraction target
(`filepath.Join(target, header.Name)`), `mode` the recorded permission
bits, `content` the entry's bytes. -/
inductive TarEntry where
  | dir (name : FsPath) (mode : Nat)
  | file (name : FsPath) (mode : Nat) (content : List Nat)
  deriving DecidableEq, Repr

/-- Contents of the extraction target directory: directories (with their
modes) and files (with modes and byte contents), keyed by path relative to
the target. -/
structure TarFS where
  dirs : List (FsPath × Nat)
  files : List (FsPath × Nat × List Nat)
  deriving DecidableEq, Repr

/-- Does a directory exist at `p`? -/
def TarFS.hasDir (fs : TarFS) (p : FsPath) : Bool :=
  fs.dirs.any (fun d => decide (d.1 = p))

/-- Does a regular file exist at `p`? -/
def TarFS.hasFile (fs : TarFS) (p : FsPath) : Bool :=
  fs.files.any (fun f => decide (f.1 = p))

/-- The paths of all directories. -/
def TarFS.dirPaths (fs : TarFS) : List FsPath :=
  fs.dirs.map Prod.fst

/-- The paths of all regular files. -/
def TarFS.filePaths (fs : TarFS) : List FsPath :=
  fs.files.map Prod.fst

/-- All existing paths. -/
def TarFS.allPaths (fs : TarFS) : List FsPath :=
  fs.dirPaths ++ fs.filePaths

/-- Truncate the file at `p` to the bytes `b`, keeping its original mode
(`O_TRUNC` on an existing file does not change its permission bits). -/
def truncateFile (files : List (FsPath × Nat × List Nat)) (p : FsPath) (b : List Nat) :
    List (FsPath × Nat × List Nat) :=
  files.map (fun f => if f.1 = p then (f.1, f.2.1, b) else f)

/-- The component walk of `os.MkdirAll`: create each missing directory
along the path with the given mode; an existing directory is left exactly
as it is (its mode is not changed); an existing regular file along the path
is an error. -/
def mkdirAllAux (fs : TarFS) (pre rest : FsPath) (mode : Nat) : Except String TarFS :=
  match rest with
  | [] => Except.ok fs
  | c :: cs =>
      let q := pre ++ [c]
      if fs.hasFile q then Except.error "mkdir: not a directory"
      else
        let fs1 := if fs.hasDir q then fs else { fs with dirs := fs.dirs ++ [(q, mode)] }
        mkdirAllAux fs1 q cs mode

/-- Model of `os.MkdirAll(path, mode)` for a path relative to the target. -/
def mkdirAll (fs : TarFS) (p : FsPath) (mode : Nat) : Except String TarFS :=
  mkdirAllAux fs [] p mode

/-- Model of `os.OpenFile(path, O_CREATE|O_TRUNC|O_WRONLY, mode)` followed
by `io.Copy(file, tarReader)`: fails when the parent directory is missing
(or is not a directory) or when the path itself is a directory; truncates
an existing file, keeping its original mode; creates a missing file with
the recorded mode; then writes the entry's bytes. -/
def writeFileEntry (fs : TarFS) (p : FsPath) (mode : Nat) (b : List Nat) :
    Except String TarFS :=
  if p = [] then Except.error "open: is a directory"
  else if ¬(p.dropLast = [] ∨ fs.hasDir p.dropLast = true) then
    Except.error "open: no such file or directory"
  else if fs.hasDir p then Except.error "open: is a directory"
  else if fs.hasFile p then Except.ok { fs with files := truncateFile fs.files p b }
  else Except.ok { fs with files := fs.files ++ [(p, mode, b)] }

/-- Model of `untar`: iterate over the archive's entries; a directory entry
goes through `mkdirAll` with its recorded mode, a file entry is
created/truncated with its recorded mode and filled with its bytes; the
first error aborts the extraction. -/
def untar (entries : List TarEntry) (fs : TarFS) : Except String TarFS :=
  match entries with
  | [] => Except.ok fs
  | TarEntry.dir p m :: rest =>
      match mkdirAll fs p m with
      | Except.ok fs1 => untar rest fs1
      | Except.error e => Except.error e
  | TarEntry.file p m b :: rest =>
      match writeFileEntry fs p m b with
      | Except.ok fs1 => untar rest fs1
      | Except.error e => Except.error e

/-- Contents of the scratch directory, relative to itself, at the start of
the unpack stage: `Phracked.init` created the archive file
`<issue>.tar.gz` inside the scratch directory (`os.Create` opens it with
permission `0666` = 438) and `writeToFile` filled it with the downloaded
bytes. -/
def unpackInit (issue : String) (arcBytes : List Nat) : TarFS :=
  { dirs := [], files := [([issue ++ ".tar.gz"], 438, arcBytes)] }

/-- The nonempty proper prefixes of a path. -/
def strictPrefixes (p : FsPath) : List FsPath :=
  ((List.range p.length).map (fun k => p.take k)).filter (fun q => decide (q ≠ []))

/-- Well-formedness of an archive with respect to the extraction target:
`ds` is the list of directories existing so far, `seen` the list of all
paths existing so far.  Every entry must have a nonempty path not used
before; every nonempty proper prefix of a directory entry's path must
already be a directory; a file entry's parent must be the target root or an
already-existing directory.  This is the usual layout of a tar archive
(parents listed before their children), restricted to entry names that do
not collide with anything already in the target. -/
def wfEntries (ds seen : List FsPath) : List TarEntry → Bool
  | [] => true
  | TarEntry.dir p _ :: rest =>
      decide (p ≠ []) && decide (p ∉ seen) &&
        (strictPrefixes p).all (fun q => decide (q ∈ ds)) &&
        wfEntries (p :: ds) (p :: seen) rest
  | TarEntry.file p _ _ :: rest =>
      decide (p ≠ []) && decide (p ∉ seen) &&
        (decide (p.dropLast = []) || decide (p.dropLast ∈ ds)) &&
        wfEntries ds (p :: seen) rest

/-- The directory entries of an archive, in order, as `(path, mode)`. -/
def entriesDirs : List TarEntry → List (FsPath × Nat)
  | [] => []
  | TarEntry.dir p m :: rest => (p, m) :: entriesDirs rest
  | TarEntry.file _ _ _ :: rest => entriesDirs rest

/-- The file entries of an archive, in order, as `(path, mode, bytes)`. -/
def entriesFiles : List TarEntry → List (FsPath × Nat × List Nat)
  | [] => []
  | TarEntry.dir _ _ :: rest => entriesFiles rest
  | TarEntry.file p m b :: rest => (p, m, b) :: entriesFiles rest

/-- A session with a loaded issue, used to exercise the theorems below on
concrete inputs. -/
def demoSession : Phracked :=
  { issue := "1",
    url := "http://www.phrack.org/archives/tgz/phrack1.tar.gz",
    tempPrefix := "issue-1-",
    temp := ["tmp", "issue-1-123"],
    filePath := ["tmp", "issue-1-123", "1.tar.gz"],
    pages := 0,
    tgz := some ["tmp", "issue-1-123", "1.tar.gz"],
    fs := [["tmp"], ["tmp", "issue-1-123"], ["tmp", "issue-1-123", "1.tar.gz"]] }

/-! Theorems about the status-consumer loop. -/

theorem countPagesLoop_eq (names : List String) :
    ∀ acc : Nat,
      countPagesLoop names acc
        = acc + (names.filter (fun n => hasSuffix n ".txt")).length := by
  induction names with
  | nil => intro acc; simp [countPagesLoop]
  | cons n rest ih =>
      intro acc
      by_cases h : hasSuffix n ".txt" = true
      · simp [countPagesLoop, h, ih, List.filter_cons]
        omega
      · have h0 : hasSuffix n ".txt" = false := by
          cases hb : hasSuffix n ".txt"
          · rfl
          · exact absurd hb h
        simp [countPagesLoop, h0, ih, List.filter_cons]

/-- Claim C2: after the indexing stage, `pages` equals exactly the number of
immediate entries of the scratch directory whose name ends in `".txt"`,
regardless of other entries present, and the count is recomputed from zero
on every run (it does not depend on the previous session state). -/
theorem C2_pageCount_exact (p : Phracked) (names : List String) :
    (Phracked.countPages p names).pages
        = (names.filter (fun n => hasSuffix n ".txt")).length ∧
    ∀ q : Phracked, (Phracked.countPages p names).pages = (Phracked.countPages q names).pages := by
  constructor
  · show countPagesLoop names 0 = _
    simpa using countPagesLoop_eq names 0
  · intro q; rfl

theorem loadLoop_done (d : Display) (post : List LoadEv) :
    loadLoop d (LoadEv.msg "done" :: post) = ⟨d, [], true⟩ := by
  simp [loadLoop]

theorem loadLoop_msg_ne (d : Display) (s : String) (rest : List LoadEv) (h : s ≠ "done") :
    loadLoop d (LoadEv.msg s :: rest)
      = ⟨(loadLoop (updateStatus d s) rest).disp,
         s :: (loadLoop (updateStatus d s) rest).appended,
         (loadLoop (updateStatus d s) rest).exited⟩ := by
  simp only [loadLoop, if_neg h]

theorem loadLoop_timeout_step (d : Display) (rest : List LoadEv) :
    loadLoop d (LoadEv.timeout :: rest)
      = ⟨(loadLoop (updateStatus d ".") rest).disp,
         "." :: (loadLoop (updateStatus d ".") rest).appended,
         (loadLoop (updateStatus d ".") rest).exited⟩ := rfl

theorem loadLoop_exited_iff (evs : List LoadEv) :
    ∀ d : Display, (loadLoop d evs).exited = true ↔ LoadEv.msg "done" ∈ evs := by
  induction evs with
  | nil => intro d; simp [loadLoop]
  | cons e rest ih =>
      intro d
      cases e with
      | msg s =>
          by_cases h : s = "done"
          · subst h; simp [loadLoop_done]
          · rw [loadLoop_msg_ne d s rest h]
            show (loadLoop (updateStatus d s) rest).exited = true ↔ _
            rw [ih]
            simp only [List.mem_cons]
            constructor
            · exact fun hm => Or.inr hm
            · rintro (hc | hm)
              · exact absurd (LoadEv.msg.inj hc).symm h
              · exact hm
      | timeout =>
          rw [loadLoop_timeout_step d rest]
          show (loadLoop (updateStatus d ".") rest).exited = true ↔ _
          rw [ih]
          simp

theorem loadLoop_never_appends_done (evs : List LoadEv) :
    ∀ d : Display, "done" ∉ (loadLoop d evs).appended := by
  induction evs with
  | nil => intro d; simp [loadLoop]
  | cons e rest ih =>
      intro d
      cases e with
      | msg s =>
          by_cases h : s = "done"
          · subst h; simp [loadLoop_done]
          · rw [loadLoop_msg_ne d s rest h]
            show "done" ∉ s :: (loadLoop (updateStatus d s) rest).appended
            intro hmem
            rcases List.mem_cons.mp hmem with h1 | h2
            · exact h h1.symm
            · exact ih _ h2
      | timeout =>
          rw [loadLoop_timeout_step d rest]
          show "done" ∉ "." :: (loadLoop (updateStatus d ".") rest).appended
          intro hmem
          rcases List.mem_cons.mp hmem with h1 | h2
          · exact absurd h1 (by decide)
          · exact ih _ h2

theorem loadLoop_stops_at_done (pre : List LoadEv) :
    ∀ (d : Display) (post : List LoadEv),
      loadLoop d (pre ++ LoadEv.msg "done" :: post)
        = loadLoop d (pre ++ [LoadEv.msg "done"]) := by
  induction pre with
  | nil =>
      intro d post
      show loadLoop d (LoadEv.msg "done" :: post) = loadLoop d [LoadEv.msg "done"]
      rw [loadLoop_done, loadLoop_done]
  | cons e pre ih =>
      intro d post
      cases e with
      | msg s =>
          by_cases h : s = "done"
          · subst h
            show loadLoop d (LoadEv.msg "done" :: _) = loadLoop d (LoadEv.msg "done" :: _)
            rw [loadLoop_done, loadLoop_done]
          · show loadLoop d (LoadEv.msg s :: (pre ++ LoadEv.msg "done" :: post))
                = loadLoop d (LoadEv.msg s :: (pre ++ [LoadEv.msg "done"]))
            rw [loadLoop_msg_ne _ _ _ h, loadLoop_msg_ne _ _ _ h, ih]
      | timeout =>
          show loadLoop d (LoadEv.timeout :: (pre ++ LoadEv.msg "done" :: post))
              = loadLoop d (LoadEv.timeout :: (pre ++ [LoadEv.msg "done"]))
          rw [loadLoop_timeout_step, loadLoop_timeout_step, ih]

/-- Claim C4: the status consumer loop exits exactly when it receives the
sentinel message `"done"`; the sentinel itself is never appended to the
status display; after the sentinel, the loop appends no further filler
characters or messages (the trace past the sentinel is ignored). -/
theorem C4_loop_exits_on_done (d : Display) (evs : List LoadEv) :
    ((loadLoop d evs).exited = true ↔ LoadEv.msg "done" ∈ evs) ∧
    "done" ∉ (loadLoop d evs).appended ∧
    ∀ (pre post : List LoadEv),
      loadLoop d (pre ++ LoadEv.msg "done" :: post)
        = loadLoop d (pre ++ [LoadEv.msg "done"]) :=
  ⟨loadLoop_exited_iff evs d, loadLoop_never_appends_done evs d,
   fun pre post => loadLoop_stops_at_done pre d post⟩

/-- Claim C5: on an iteration in which the one-second timer elapses with no
message, exactly one filler period is appended to the display before the
rest of the trace is processed, and appending it neither advances the
cursor nor scrolls the origin. -/
theorem C5_timeout_appends_one_period (d : Display) (rest : List LoadEv) :
    (loadLoop d (LoadEv.timeout :: rest)).appended
        = "." :: (loadLoop (updateStatus d ".") rest).appended ∧
    updateStatus d "." = { d with buf := d.buf ++ "." } ∧
    (updateStatus d ".").cy = d.cy ∧
    (updateStatus d ".").oy = d.oy := by
  have hns : hasSuffix "." "\n" = false := by decide
  refine ⟨rfl, ?_, ?_, ?_⟩ <;> simp [updateStatus, hns]

/-! Theorems about the session state. -/

theorem clean_of_temp_nil (p : Phracked) (h : p.temp = []) : Phracked.clean p = p := by
  unfold Phracked.clean
  rw [if_pos h]

theorem clean_of_temp_ne (p : Phracked) (h : ¬ p.temp = []) :
    Phracked.clean p
      = { p with tgz := none, fs := p.fs.filter (fun q => decide (¬ p.temp <+: q)) } := by
  unfold Phracked.clean
  rw [if_neg h]

theorem clean_fs_subset (p : Phracked) (q : FsPath) (h : q ∈ (Phracked.clean p).fs) :
    q ∈ p.fs := by
  by_cases ht : p.temp = []
  · rw [clean_of_temp_nil p ht] at h; exact h
  · rw [clean_of_temp_ne p ht] at h
    exact List.mem_of_mem_filter h

theorem clean_releases (p : Phracked) (h : p.temp ≠ []) :
    (Phracked.clean p).tgz = none ∧ ∀ q ∈ (Phracked.clean p).fs, ¬ p.temp <+: q := by
  rw [clean_of_temp_ne p h]
  refine ⟨rfl, ?_⟩
  intro q hq
  have := List.of_mem_filter hq
  simpa using this

theorem clean_temp (p : Phracked) : (Phracked.clean p).temp = p.temp := by
  by_cases h : p.temp = []
  · rw [clean_of_temp_nil p h]
  · rw [clean_of_temp_ne p h]

theorem clean_idem (p : Phracked) :
    Phracked.clean (Phracked.clean p) = Phracked.clean p := by
  by_cases h : p.temp = []
  · rw [clean_of_temp_nil p h, clean_of_temp_nil p h]
  · have h2 : ¬ (Phracked.clean p).temp = [] := by
      rw [clean_temp]; exact h
    rw [clean_of_temp_ne _ h2, clean_of_temp_ne p h]
    simp [List.filter_filter]

/-- Claim C7: `clean` is idempotent and total: before any `init` (empty
scratch path) it is a no-op; running it twice equals running it once, with
no failure possible (it is a total function); on an initialised session it
closes the archive handle and removes every path under the scratch
directory. -/
theorem C7_release_idempotent (p : Phracked) :
    (p.temp = [] → Phracked.clean p = p) ∧
    Phracked.clean (Phracked.clean p) = Phracked.clean p ∧
    (p.temp ≠ [] →
      (Phracked.clean p).tgz = none ∧ ∀ q ∈ (Phracked.clean p).fs, ¬ p.temp <+: q) :=
  ⟨clean_of_temp_nil p, clean_idem p, clean_releases p⟩

/-- Witness for C7 at concrete states: the zero-valued session (never
initialised) and a loaded session. -/
theorem C7_release_idempotent_witness :
    Phracked.clean Phracked.zero = Phracked.zero ∧
    (Phracked.clean demoSession).tgz = none :=
  ⟨(C7_release_idempotent Phracked.zero).1 rfl,
   ((C7_release_idempotent demoSession).2.2 (by decide)).1⟩

/-- Claim C6: for a digits-only identifier `id`, `init` sets the URL to the
fixed template interpolated with `id`, sets the archive path to the scratch
directory joined with `id` plus the `.tar.gz` extension, and allocates a
fresh scratch directory that is initially empty — after `init` returns, the
only paths inside the new scratch directory are the directory itself and
the archive file that `init` itself just created in it. -/
theorem C6_reset_locator (p : Phracked) (id : String) (f : FsPath)
    (_hdig : id.data.all Char.isDigit = true)
    (hfresh : ∀ q ∈ p.fs, ¬ f <+: q) :
    (Phracked.init p id f).url
        = "http://www.phrack.org/archives/tgz/phrack" ++ id ++ ".tar.gz" ∧
    (Phracked.init p id f).temp = f ∧
    (Phracked.init p id f).filePath = (Phracked.init p id f).temp ++ [id ++ ".tar.gz"] ∧
    ∀ q ∈ (Phracked.init p id f).fs, f <+: q → q = f ∨ q = f ++ [id ++ ".tar.gz"] := by
  refine ⟨rfl, rfl, rfl, ?_⟩
  intro q hq hpre
  have hq' : q ∈ (Phracked.clean p).fs ++ [f] ++ [f ++ [id ++ ".tar.gz"]] := hq
  rcases List.mem_append.mp hq' with h1 | h2
  · rcases List.mem_append.mp h1 with h3 | h4
    · exact absurd hpre (hfresh q (clean_fs_subset p q h3))
    · exact Or.inl (by simpa using h4)
  · exact Or.inr (by simpa using h2)

/-- Witness for C6 at a concrete digit identifier and fresh directory. -/
theorem C6_reset_locator_witness :
    ("20" : String).data.all Char.isDigit = true ∧
    (Phracked.init Phracked.zero "20" ["tmp", "issue-20-1"]).url
        = "http://www.phrack.org/archives/tgz/phrack20.tar.gz" := by
  refine ⟨by decide, ?_⟩
  have h := C6_reset_locator Phracked.zero "20" ["tmp", "issue-20-1"] (by decide) (by decide)
  rw [h.1]
  decide

/-- Claim C9: every `init` first releases the previous session (the old
archive handle is closed, every path under the old scratch directory is
removed, and nothing of the old scratch directory survives into the new
state), the release is safe when nothing was ever loaded, and `init` is
literally the release step followed by the fresh allocation, so at most one
session's scratch directory is live afterwards. -/
theorem C9_reset_releases_previous (p : Phracked) (id : String) (f : FsPath)
    (h1 : ¬ f <+: p.temp) (h2 : ¬ p.temp <+: f) :
    (∀ q ∈ (Phracked.init p id f).fs, ¬ p.temp <+: q) ∧
    (Phracked.clean p).tgz = none ∧
    (Phracked.init p id f).temp = f ∧
    f ∈ (Phracked.init p id f).fs ∧
    Phracked.init p id f = Phracked.initBody (Phracked.clean p) id f ∧
    Phracked.clean Phracked.zero = Phracked.zero := by
  have hne : p.temp ≠ [] := by
    intro he
    exact h2 (he ▸ List.nil_prefix)
  refine ⟨?_, (clean_releases p hne).1, rfl, ?_, rfl, clean_of_temp_nil _ rfl⟩
  · intro q hq
    have hq' : q ∈ (Phracked.clean p).fs ++ [f] ++ [f ++ [id ++ ".tar.gz"]] := hq
    rcases List.mem_append.mp hq' with hl | hr
    · rcases List.mem_append.mp hl with h3 | h4
      · exact (clean_releases p hne).2 q h3
      · have : q = f := by simpa using h4
        exact this ▸ h2
    · have : q = f ++ [id ++ ".tar.gz"] := by simpa using hr
      subst this
      intro hcon
      rcases List.prefix_concat_iff.mp hcon with he | hp
      · exact h1 (he ▸ List.prefix_append f [id ++ ".tar.gz"])
      · exact h2 hp
  · show f ∈ (Phracked.clean p).fs ++ [f] ++ [f ++ [id ++ ".tar.gz"]]
    exact List.mem_append.mpr (Or.inl (List.mem_append.mpr (Or.inr (by simp))))

/-- Witness for C9: re-initialising a loaded session with a fresh scratch
directory removes every path of the old scratch directory. -/
theorem C9_reset_releases_previous_witness :
    (¬ (["tmp", "new1"] : FsPath) <+: demoSession.temp) ∧
    (¬ demoSession.temp <+: (["tmp", "new1"] : FsPath)) ∧
    ∀ q ∈ (Phracked.init demoSession "2" ["tmp", "new1"]).fs,
      ¬ demoSession.temp <+: q :=
  ⟨by decide, by decide,
   (C9_reset_releases_previous demoSession "2" ["tmp", "new1"] (by decide) (by decide)).1⟩

theorem stripNonDigits_all_digits (cs : List Char) :
    (stripNonDigits cs).all Char.isDigit = true := by
  induction cs with
  | nil => rfl
  | cons c cs ih =>
      by_cases h : c.isDigit
      · simp [stripNonDigits, h, ih]
      · simp [stripNonDigits, h, ih]

/-- Claim C8: the reload path strips all non-digit characters from the
prompt buffer before accepting the identifier: `"2a0"` becomes `"20"` and
triggers a fresh `init("20")` plus a pipeline run; the accepted identifier
always consists of digits only, and an empty result is accepted as-is. -/
theorem C8_reload_sanitizes (p : Phracked) (f : FsPath) :
    (loadIssue p "2a0" f).1 = Phracked.init p "20" f ∧
    (loadIssue p "2a0" f).2 = true ∧
    (∀ vb : String, ((loadIssue p vb f).1.issue).data.all Char.isDigit = true) ∧
    (∀ vb : String, loadIssue p vb f = (Phracked.init p (sanitize vb) f, true)) ∧
    (loadIssue p "" f).1.issue = "" ∧
    (loadIssue p "abc" f).1.issue = "" := by
  have h20 : sanitize "2a0" = "20" := by decide
  refine ⟨?_, rfl, ?_, fun vb => rfl, rfl, ?_⟩
  · show Phracked.init p (sanitize "2a0") f = Phracked.init p "20" f
    rw [h20]
  · intro vb
    show (sanitize vb).data.all Char.isDigit = true
    exact stripNonDigits_all_digits vb.data
  · show sanitize "abc" = ""
    decide

/-- Claim C10: the first positional process argument, when present, is used
verbatim as the initial issue identifier with no digits-only sanitisation
(unlike the reload prompt path); when absent the identifier defaults to
`"1"`. -/
theorem C10_initial_argument_verbatim (prog a : String) (rest : List String) (f : FsPath) :
    initialIssue (prog :: a :: rest) = a ∧
    (startSession (prog :: a :: rest) f).issue = a ∧
    (∀ (q : String) (f2 : FsPath), (startSession [q] f2).issue = "1") ∧
    (startSession [prog, "2a0"] f).issue = "2a0" ∧
    sanitize "2a0" ≠ "2a0" :=
  ⟨rfl, rfl, fun _ _ => rfl, rfl, by decide⟩

/-- Counterexample to claim C3 as stated: on a stream-write failure the
`"Wrote to <path>"` status message is still emitted — the Go code sends the
message on the status channel before it checks the `io.Copy` error. -/
theorem C3_write_message_counterexample :
    Phracked.writeToFile demoSession (some "disk full")
      = (["Wrote to tmp/issue-1-123/1.tar.gz\n"],
         RunRes.fatal (Phracked.clean demoSession)) := by
  decide

/-- Claim C3 (amended): on a stream-write failure the process releases the
session resources and terminates fatally; the `"Wrote to <path>"` status
message, however, is emitted after the copy attempt regardless of success —
it is sent before the error check, so it also appears on a failed write. -/
theorem C3_write_failure_fatal (p : Phracked) (e : String) :
    Phracked.writeToFile p none
        = (["Wrote to " ++ pathString p.filePath ++ "\n"], RunRes.ok p) ∧
    Phracked.writeToFile p (some e)
        = (["Wrote to " ++ pathString p.filePath ++ "\n"],
           RunRes.fatal (Phracked.clean p)) ∧
    (p.temp ≠ [] →
      (Phracked.clean p).tgz = none ∧ ∀ q ∈ (Phracked.clean p).fs, ¬ p.temp <+: q) :=
  ⟨rfl, rfl, clean_releases p⟩

/-- Witness for C3 (amended) at a concrete loaded session. -/
theorem C3_write_failure_fatal_witness :
    Phracked.writeToFile demoSession none
        = (["Wrote to tmp/issue-1-123/1.tar.gz\n"], RunRes.ok demoSession) ∧
    (Phracked.clean demoSession).tgz = none := by
  have h := C3_write_failure_fatal demoSession "disk full"
  refine ⟨?_, (h.2.2 (by decide)).1⟩
  rw [h.1]
  decide

/-! Theorems about archive extraction. -/

theorem hasFile_iff (fs : TarFS) (p : FsPath) :
    fs.hasFile p = true ↔ p ∈ fs.filePaths := by
  simp [TarFS.hasFile, TarFS.filePaths, List.any_eq_true]

theorem hasDir_iff (fs : TarFS) (p : FsPath) :
    fs.hasDir p = true ↔ p ∈ fs.dirPaths := by
  simp [TarFS.hasDir, TarFS.dirPaths, List.any_eq_true]

theorem hasFile_false (fs : TarFS) (p : FsPath) (h : p ∉ fs.filePaths) :
    fs.hasFile p = false := by
  cases hb : fs.hasFile p
  · rfl
  · exact absurd ((hasFile_iff fs p).mp hb) h

theorem hasDir_false (fs : TarFS) (p : FsPath) (h : p ∉ fs.dirPaths) :
    fs.hasDir p = false := by
  cases hb : fs.hasDir p
  · rfl
  · exact absurd ((hasDir_iff fs p).mp hb) h

theorem allPaths_disjoint (fs : TarFS) (hnd : fs.allPaths.Nodup) (p : FsPath)
    (hd : p ∈ fs.dirPaths) : p ∉ fs.filePaths := by
  rw [TarFS.allPaths, List.nodup_append] at hnd
  exact fun hf => hnd.2.2 hd hf

theorem mkdirAllAux_cons (fs : TarFS) (pre : FsPath) (c : String) (cs : List String)
    (mode : Nat) :
    mkdirAllAux fs pre (c :: cs) mode
      = (if fs.hasFile (pre ++ [c]) then Except.error "mkdir: not a directory"
         else mkdirAllAux
                (if fs.hasDir (pre ++ [c]) then fs
                 else { fs with dirs := fs.dirs ++ [(pre ++ [c], mode)] })
                (pre ++ [c]) cs mode) := rfl

theorem mkdirAllAux_spec (rest : List String) :
    ∀ (fs : TarFS) (pre : FsPath) (mode : Nat),
      fs.allPaths.Nodup →
      (∀ k, 0 < k → k < rest.length → pre ++ rest.take k ∈ fs.dirPaths) →
      pre ++ rest ∉ fs.allPaths →
      rest ≠ [] →
      mkdirAllAux fs pre rest mode
        = Except.ok { fs with dirs := fs.dirs ++ [(pre ++ rest, mode)] } := by
  induction rest with
  | nil => intro fs pre mode _ _ _ hne; exact absurd rfl hne
  | cons c cs ih =>
      intro fs pre mode hnd hpre hfresh _
      by_cases hcs : cs = []
      · subst hcs
        have hfr : pre ++ [c] ∉ fs.allPaths := hfresh
        have hf : fs.hasFile (pre ++ [c]) = false :=
          hasFile_false fs _ (fun hm => hfr (List.mem_append.mpr (Or.inr hm)))
        have hd : fs.hasDir (pre ++ [c]) = false :=
          hasDir_false fs _ (fun hm => hfr (List.mem_append.mpr (Or.inl hm)))
        rw [mkdirAllAux_cons, if_neg (by simp [hf]), if_neg (by simp [hd])]
        rfl
      · have hlen : 0 < cs.length := List.length_pos.mpr hcs
        have h1 : pre ++ [c] ∈ fs.dirPaths := by
          have := hpre 1 (by omega) (by simp only [List.length_cons]; omega)
          simpa using this
        have hf : fs.hasFile (pre ++ [c]) = false :=
          hasFile_false fs _ (allPaths_disjoint fs hnd _ h1)
        have hd : fs.hasDir (pre ++ [c]) = true := (hasDir_iff fs _).mpr h1
        have hp' : ∀ k, 0 < k → k < cs.length → (pre ++ [c]) ++ cs.take k ∈ fs.dirPaths := by
          intro k hk1 hk2
          have hk3 : k + 1 < (c :: cs).length := by
            simp only [List.length_cons]; omega
          have := hpre (k + 1) (by omega) hk3
          rw [List.take_succ_cons] at this
          simpa [List.append_assoc] using this
        have hfr' : (pre ++ [c]) ++ cs ∉ fs.allPaths := by
          simpa [List.append_assoc] using hfresh
        rw [mkdirAllAux_cons, if_neg (by simp [hf]), if_pos hd,
          ih fs (pre ++ [c]) mode hnd hp' hfr' hcs]
        simp [List.append_assoc]

theorem mkdirAll_spec (fs : TarFS) (p : FsPath) (mode : Nat)
    (hnd : fs.allPaths.Nodup)
    (hpre : ∀ q ∈ strictPrefixes p, q ∈ fs.dirPaths)
    (hfresh : p ∉ fs.allPaths) (hne : p ≠ []) :
    mkdirAll fs p mode = Except.ok { fs with dirs := fs.dirs ++ [(p, mode)] } := by
  have h1 : ∀ k, 0 < k → k < p.length → [] ++ p.take k ∈ fs.dirPaths := by
    intro k hk1 hk2
    rw [List.nil_append]
    apply hpre
    unfold strictPrefixes
    apply List.mem_filter.mpr
    constructor
    · exact List.mem_map.mpr ⟨k, List.mem_range.mpr hk2, rfl⟩
    · simp only [decide_eq_true_eq]
      rw [Ne, List.take_eq_nil_iff]
      rintro (h | h)
      · omega
      · exact hne h
  have h2 : [] ++ p ∉ fs.allPaths := by
    rw [List.nil_append]; exact hfresh
  have h3 := mkdirAllAux_spec p fs [] mode hnd h1 h2 hne
  show mkdirAllAux fs [] p mode = _
  rw [h3]
  simp

theorem writeFileEntry_spec (fs : TarFS) (p : FsPath) (mode : Nat) (b : List Nat)
    (hne : p ≠ [])
    (hpar : p.dropLast = [] ∨ p.dropLast ∈ fs.dirPaths)
    (hfresh : p ∉ fs.allPaths) :
    writeFileEntry fs p mode b
      = Except.ok { fs with files := fs.files ++ [(p, mode, b)] } := by
  have hd : fs.hasDir p = false :=
    hasDir_false fs p (fun hm => hfresh (List.mem_append.mpr (Or.inl hm)))
  have hf : fs.hasFile p = false :=
    hasFile_false fs p (fun hm => hfresh (List.mem_append.mpr (Or.inr hm)))
  have hpar' : p.dropLast = [] ∨ fs.hasDir p.dropLast = true := by
    rcases hpar with h | h
    · exact Or.inl h
    · exact Or.inr ((hasDir_iff fs _).mpr h)
  unfold writeFileEntry
  rw [if_neg hne, if_neg (fun hcon => hcon hpar'), if_neg (by simp [hd]),
    if_neg (by simp [hf])]

theorem wfEntries_congr (entries : List TarEntry) :
    ∀ ds ds' seen seen' : List FsPath,
      (∀ x, x ∈ ds ↔ x ∈ ds') → (∀ x, x ∈ seen ↔ x ∈ seen') →
      wfEntries ds seen entries = wfEntries ds' seen' entries := by
  induction entries with
  | nil => intro ds ds' seen seen' _ _; rfl
  | cons e rest ih =>
      intro ds ds' seen seen' hd hs
      cases e with
      | dir p m =>
          have hrec := ih (p :: ds) (p :: ds') (p :: seen) (p :: seen')
            (fun x => by simp only [List.mem_cons, hd x])
            (fun x => by simp only [List.mem_cons, hs x])
          have h2 : (fun q : FsPath => decide (q ∈ ds)) = fun q => decide (q ∈ ds') := by
            funext q
            exact decide_eq_decide.mpr (hd q)
          have h3 : decide (p ∉ seen) = decide (p ∉ seen') :=
            decide_eq_decide.mpr (not_congr (hs p))
          show (decide (p ≠ []) && decide (p ∉ seen) &&
                (strictPrefixes p).all (fun q => decide (q ∈ ds)) &&
                wfEntries (p :: ds) (p :: seen) rest)
              = (decide (p ≠ []) && decide (p ∉ seen') &&
                (strictPrefixes p).all (fun q => decide (q ∈ ds')) &&
                wfEntries (p :: ds') (p :: seen') rest)
          rw [h2, h3, hrec]
      | file p m b =>
          have hrec := ih ds ds' (p :: seen) (p :: seen')
            hd (fun x => by simp only [List.mem_cons, hs x])
          have h3 : decide (p ∉ seen) = decide (p ∉ seen') :=
            decide_eq_decide.mpr (not_congr (hs p))
          have h4 : decide (p.dropLast ∈ ds) = decide (p.dropLast ∈ ds') :=
            decide_eq_decide.mpr (hd _)
          show (decide (p ≠ []) && decide (p ∉ seen) &&
                (decide (p.dropLast = []) || decide (p.dropLast ∈ ds)) &&
                wfEntries ds (p :: seen) rest)
              = (decide (p ≠ []) && decide (p ∉ seen') &&
                (decide (p.dropLast = []) || decide (p.dropLast ∈ ds')) &&
                wfEntries ds' (p :: seen') rest)
          rw [h3, h4, hrec]

theorem untar_wf (entries : List TarEntry) :
    ∀ fs : TarFS,
      fs.allPaths.Nodup →
      wfEntries fs.dirPaths fs.allPaths entries = true →
      untar entries fs
        = Except.ok { dirs := fs.dirs ++ entriesDirs entries,
                      files := fs.files ++ entriesFiles entries } := by
  induction entries with
  | nil =>
      intro fs _ _
      show Except.ok fs = _
      simp [entriesDirs, entriesFiles]
  | cons e rest ih =>
      intro fs hnd hwf
      cases e with
      | dir p m =>
          have hwf' : (decide (p ≠ []) && decide (p ∉ fs.allPaths) &&
              (strictPrefixes p).all (fun q => decide (q ∈ fs.dirPaths)) &&
              wfEntries (p :: fs.dirPaths) (p :: fs.allPaths) rest) = true := hwf
          simp only [Bool.and_eq_true, decide_eq_true_eq, List.all_eq_true] at hwf'
          obtain ⟨⟨⟨hp1, hp2⟩, hp3⟩, hp4⟩ := hwf'
          have hmk := mkdirAll_spec fs p m hnd hp3 hp2 hp1
          show (match mkdirAll fs p m with
                | Except.ok fs1 => untar rest fs1
                | Except.error e => Except.error e) = _
          rw [hmk]
          show untar rest { fs with dirs := fs.dirs ++ [(p, m)] } = _
          have e1 : ({ fs with dirs := fs.dirs ++ [(p, m)] } : TarFS).dirPaths
              = fs.dirPaths ++ [p] := by
            simp [TarFS.dirPaths]
          have e2 : ({ fs with dirs := fs.dirs ++ [(p, m)] } : TarFS).allPaths
              = (fs.dirPaths ++ [p]) ++ fs.filePaths := by
            simp [TarFS.allPaths, TarFS.dirPaths, TarFS.filePaths]
          have hnd1 : ({ fs with dirs := fs.dirs ++ [(p, m)] } : TarFS).allPaths.Nodup := by
            rw [e2]
            have e3 : (fs.dirPaths ++ [p]) ++ fs.filePaths
                = fs.dirPaths ++ p :: fs.filePaths := by
              simp
            rw [e3, List.nodup_middle, List.nodup_cons]
            exact ⟨hp2, hnd⟩
          have hiff1 : ∀ x : FsPath, x ∈ p :: fs.dirPaths ↔ x ∈ fs.dirPaths ++ [p] := by
            intro x
            simp only [List.mem_cons, List.mem_append, List.mem_singleton]
            tauto
          have hiff2 : ∀ x : FsPath,
              x ∈ p :: fs.allPaths ↔ x ∈ (fs.dirPaths ++ [p]) ++ fs.filePaths := by
            intro x
            simp only [TarFS.allPaths, List.mem_cons, List.mem_append, List.mem_singleton]
            tauto
          have hwf1 : wfEntries ({ fs with dirs := fs.dirs ++ [(p, m)] } : TarFS).dirPaths
              ({ fs with dirs := fs.dirs ++ [(p, m)] } : TarFS).allPaths rest = true := by
            rw [e1, e2,
              ← wfEntries_congr rest (p :: fs.dirPaths) (fs.dirPaths ++ [p])
                (p :: fs.allPaths) ((fs.dirPaths ++ [p]) ++ fs.filePaths) hiff1 hiff2]
            exact hp4
          rw [ih _ hnd1 hwf1]
          show _ = Except.ok ({ dirs := fs.dirs ++ ((p, m) :: entriesDirs rest),
                                files := fs.files ++ entriesFiles rest } : TarFS)
          simp [List.append_assoc]
      | file p m b =>
          have hwf' : (decide (p ≠ []) && decide (p ∉ fs.allPaths) &&
              (decide (p.dropLast = []) || decide (p.dropLast ∈ fs.dirPaths)) &&
              wfEntries fs.dirPaths (p :: fs.allPaths) rest) = true := hwf
          simp only [Bool.and_eq_true, Bool.or_eq_true, decide_eq_true_eq] at hwf'
          obtain ⟨⟨⟨hp1, hp2⟩, hp3⟩, hp4⟩ := hwf'
          have hwr := writeFileEntry_spec fs p m b hp1 hp3 hp2
          show (match writeFileEntry fs p m b with
                | Except.ok fs1 => untar rest fs1
                | Except.error e => Except.error e) = _
          rw [hwr]
          show untar rest { fs with files := fs.files ++ [(p, m, b)] } = _
          have e1 : ({ fs with files := fs.files ++ [(p, m, b)] } : TarFS).dirPaths
              = fs.dirPaths := by
            simp [TarFS.dirPaths]
          have e2 : ({ fs with files := fs.files ++ [(p, m, b)] } : TarFS).allPaths
              = (fs.dirPaths ++ fs.filePaths) ++ [p] := by
            simp [TarFS.allPaths, TarFS.dirPaths, TarFS.filePaths]
          have hnd1 : ({ fs with files := fs.files ++ [(p, m, b)] } : TarFS).allPaths.Nodup := by
            rw [e2, List.nodup_append]
            refine ⟨hnd, List.nodup_singleton p, ?_⟩
            intro a ha hb
            have hab : a = p := by simpa using hb
            subst hab
            exact hp2 ha
          have hiff2 : ∀ x : FsPath,
              x ∈ p :: fs.allPaths ↔ x ∈ (fs.dirPaths ++ fs.filePaths) ++ [p] := by
            intro x
            simp only [TarFS.allPaths, List.mem_cons, List.mem_append, List.mem_singleton]
            tauto
          have hwf1 : wfEntries ({ fs with files := fs.files ++ [(p, m, b)] } : TarFS).dirPaths
              ({ fs with files := fs.files ++ [(p, m, b)] } : TarFS).allPaths rest = true := by
            rw [e1, e2,
              ← wfEntries_congr rest fs.dirPaths fs.dirPaths
                (p :: fs.allPaths) ((fs.dirPaths ++ fs.filePaths) ++ [p])
                (fun x => Iff.rfl) hiff2]
            exact hp4
          rw [ih _ hnd1 hwf1]
          show _ = Except.ok ({ dirs := fs.dirs ++ entriesDirs rest,
                                files := fs.files ++ ((p, m, b) :: entriesFiles rest) } : TarFS)
          simp [List.append_assoc]

/-- Counterexample to claim C1 as stated: the unpack stage extracts into
the scratch directory, which already contains the downloaded archive file
itself (`Phracked.init` created `<issue>.tar.gz` inside it), so after
unpack the scratch directory does not contain *exactly* the archive's
paths: extracting an archive whose only entry is `1.txt` leaves both
`1.txt` and `1.tar.gz` in the scratch directory, and `1.tar.gz` is not an
entry path of the archive. -/
theorem C1_exact_paths_counterexample :
    untar [TarEntry.file ["1.txt"] 420 [7, 8]] (unpackInit "1" [1, 2])
      = Except.ok { dirs := [],
                    files := [(["1.tar.gz"], 438, [1, 2]), (["1.txt"], 420, [7, 8])] } ∧
    (["1.tar.gz"] : FsPath) ∉ [(["1.txt"] : FsPath)] :=
  ⟨by rfl, by decide⟩

/-- Claim C1 (amended): extraction is content-preserving up to the
already-present archive file: for a well-formed archive (nonempty, pairwise
distinct entry paths laid out parents-first, none colliding with the
downloaded archive file), after the unpack stage the scratch directory
contains exactly the archive's paths plus the downloaded archive file;
directories carry their recorded permissions, files are created with their
recorded permissions and byte-identical contents, and the archive's stored
directory structure is preserved exactly (the result lists the directory
and file entries in archive order, with their full relative paths). -/
theorem C1_extraction_content_preserving (issue : String) (arcBytes : List Nat)
    (entries : List TarEntry)
    (hwf : wfEntries [] [[issue ++ ".tar.gz"]] entries = true) :
    untar entries (unpackInit issue arcBytes)
      = Except.ok { dirs := entriesDirs entries,
                    files := ([issue ++ ".tar.gz"], 438, arcBytes) :: entriesFiles entries } := by
  have hnd : (unpackInit issue arcBytes).allPaths.Nodup := by
    simp [TarFS.allPaths, TarFS.dirPaths, TarFS.filePaths, unpackInit]
  have hwf' : wfEntries (unpackInit issue arcBytes).dirPaths
      (unpackInit issue arcBytes).allPaths entries = true := hwf
  have h := untar_wf entries (unpackInit issue arcBytes) hnd hwf'
  rw [h]
  show Except.ok ({ dirs := [] ++ entriesDirs entries,
                    files := [([issue ++ ".tar.gz"], 438, arcBytes)] ++ entriesFiles entries }
      : TarFS) = _
  simp

/-- Witness for C1 (amended): a concrete archive with one directory and two
text files, extracted into the scratch directory of issue `"1"`. -/
theorem C1_extraction_content_preserving_witness :
    wfEntries [] [["1" ++ ".tar.gz"]]
        [TarEntry.dir ["sub"] 493, TarEntry.file ["1.txt"] 420 [104, 105],
         TarEntry.file ["sub", "2.txt"] 420 [9]] = true ∧
    untar [TarEntry.dir ["sub"] 493, TarEntry.file ["1.txt"] 420 [104, 105],
           TarEntry.file ["sub", "2.txt"] 420 [9]] (unpackInit "1" [3, 4])
      = Except.ok { dirs := [(["sub"], 493)],
                    files := [(["1" ++ ".tar.gz"], 438, [3, 4]),
                              (["1.txt"], 420, [104, 105]),
                              (["sub", "2.txt"], 420, [9])] } := by
  constructor
  · decide
  · exact C1_extraction_content_preserving "1" [3, 4]
      [TarEntry.dir ["sub"] 493, TarEntry.file ["1.txt"] 420 [104, 105],
       TarEntry.file ["sub", "2.txt"] 420 [9]] (by decide)

end PhrackReader
